import Mathlib

/-!
# Verification of the exact-match patch applicator `apply_tour_patch.py`

The script reads the target file as text (`data = path.read_text()`), checks
`if old not in data: raise SystemExit("block not found")`, and on success runs
`path.write_text(data.replace(old, new, 1))`.

We embed file content as `List Char`.  Python substring containment
(`old in data`) and first-occurrence replacement (`data.replace(old, new, 1)`)
are embedded as executable functions below, following CPython semantics:
`str.find` returns the least index at which the pattern occurs (0 for the empty
pattern), and `str.replace(old, new, 1)` replaces the first (leftmost)
occurrence only, inserting `new` at position 0 when `old` is empty.
-/

/-- `listStartsWith pat s` decides whether `pat` is a prefix of `s`
(CPython `str.startswith` on character sequences). -/
def listStartsWith : List Char → List Char → Bool
  | [], _ => true
  | _ :: _, [] => false
  | p :: ps, c :: cs => p == c && listStartsWith ps cs

/-- `findSub old s` is CPython `s.find(old)`: the least index at which `old`
occurs in `s` as a contiguous substring, or `none` when it does not occur.
For the empty pattern it returns `some 0`. -/
def findSub (old : List Char) : List Char → Option Nat
  | [] => if listStartsWith old [] then some 0 else none
  | c :: cs =>
    if listStartsWith old (c :: cs) then some 0
    else (findSub old cs).map (· + 1)

/-- `pyContains old s` is CPython `old in s` (substring containment). -/
def pyContains (old s : List Char) : Bool :=
  (findSub old s).isSome

/-- `replaceFirst old new s` is CPython `s.replace(old, new, 1)`: the first
occurrence of `old` in `s` is replaced by `new`; if `old` does not occur,
`s` is returned unchanged. -/
def replaceFirst (old new s : List Char) : List Char :=
  match findSub old s with
  | none => s
  | some i => s.take i ++ new ++ s.drop (i + old.length)

/-- Outcome of one run of the script: normal completion, the
`SystemExit("block not found")` abort, or the `FileNotFoundError` raised by
`path.read_text()` when the target file does not exist. -/
inductive Outcome where
  | ok : Outcome
  | blockNotFound : Outcome
  | targetNotFound : Outcome
deriving DecidableEq, Repr

/-- State of one script run: the outcome, the file content after the run
(`none` when the file does not exist), and how many writes were performed. -/
structure RunResult where
  outcome : Outcome
  file : Option (List Char)
  writes : Nat
deriving DecidableEq, Repr

/-- The script, lines 3–186 of `apply_tour_patch.py`, as a function from the
target file's content to a run result:
`data = path.read_text()` (raising `FileNotFoundError` when the file is
missing), then `if old not in data: raise SystemExit("block not found")`,
then `path.write_text(data.replace(old, new, 1))`. -/
def runScript (old new : List Char) (file : Option (List Char)) : RunResult :=
  match file with
  | none => ⟨.targetNotFound, none, 0⟩
  | some data =>
    if pyContains old data then ⟨.ok, some (replaceFirst old new data), 1⟩
    else ⟨.blockNotFound, some data, 0⟩

/-- The number of positions of `s` (including `s.length`, where only the empty
pattern matches) at which `old` occurs, counting overlapping occurrences. -/
def occurrenceCount (old s : List Char) : Nat :=
  ((Finset.range (s.length + 1)).filter
    (fun i => listStartsWith old (List.drop i s) = true)).card

/-! ## Lemmas about startsWith / find / replace -/

theorem listStartsWith_iff_isPrefix (old s : List Char) :
    listStartsWith old s = true ↔ old <+: s := by
  induction old generalizing s with
  | nil => simp [listStartsWith]
  | cons p ps ih =>
    cases s with
    | nil => simp [listStartsWith]
    | cons c cs =>
      simp only [listStartsWith, Bool.and_eq_true, beq_iff_eq, ih,
        List.cons_prefix_cons]

theorem findSub_sound (old s : List Char) (i : Nat) (h : findSub old s = some i) :
    old <+: s.drop i := by
  induction s generalizing i with
  | nil =>
    simp only [findSub] at h
    by_cases hs : listStartsWith old [] = true
    · simp only [hs, if_true, Option.some.injEq] at h
      subst h
      exact (listStartsWith_iff_isPrefix old []).1 hs
    · simp [hs] at h
  | cons c cs ih =>
    simp only [findSub] at h
    by_cases hs : listStartsWith old (c :: cs) = true
    · simp only [hs, if_true, Option.some.injEq] at h
      subst h
      exact (listStartsWith_iff_isPrefix old (c :: cs)).1 hs
    · simp only [hs, if_false, Bool.false_eq_true, Option.map_eq_some'] at h
      obtain ⟨j, hj, rfl⟩ := h
      simpa using ih j hj

theorem findSub_complete (old s : List Char) (i : Nat) (h : old <+: s.drop i) :
    ∃ j, findSub old s = some j ∧ j ≤ i := by
  induction s generalizing i with
  | nil =>
    refine ⟨0, ?_, Nat.zero_le i⟩
    simp only [findSub]
    have : listStartsWith old [] = true := by
      rw [listStartsWith_iff_isPrefix]
      simpa using h
    simp [this]
  | cons c cs ih =>
    by_cases hs : listStartsWith old (c :: cs) = true
    · refine ⟨0, ?_, Nat.zero_le i⟩
      simp only [findSub]
      simp [hs]
    · cases i with
      | zero =>
        rw [listStartsWith_iff_isPrefix] at hs
        simp only [List.drop_zero] at h
        exact absurd h hs
      | succ n =>
        simp only [List.drop_succ_cons] at h
        obtain ⟨j, hj, hle⟩ := ih n h
        refine ⟨j + 1, ?_, Nat.succ_le_succ hle⟩
        simp only [findSub]
        simp [hs, hj]

theorem pyContains_iff (old s : List Char) :
    pyContains old s = true ↔ ∃ p t, s = p ++ old ++ t := by
  constructor
  · intro h
    rw [pyContains, Option.isSome_iff_exists] at h
    obtain ⟨i, hi⟩ := h
    obtain ⟨t, ht⟩ := findSub_sound old s i hi
    refine ⟨s.take i, t, ?_⟩
    conv_lhs => rw [← List.take_append_drop i s]
    rw [← ht, List.append_assoc]
  · rintro ⟨p, t, rfl⟩
    have hpre : old <+: (p ++ old ++ t).drop p.length := by
      rw [List.append_assoc, List.drop_left]
      exact ⟨t, rfl⟩
    obtain ⟨j, hj, _⟩ := findSub_complete old (p ++ old ++ t) p.length hpre
    rw [pyContains, hj]
    rfl

theorem findSub_le_length (old s : List Char) (i : Nat) (h : findSub old s = some i) :
    i ≤ s.length := by
  induction s generalizing i with
  | nil =>
    simp only [findSub] at h
    by_cases hs : listStartsWith old [] = true
    · simp only [hs, if_true, Option.some.injEq] at h
      omega
    · simp [hs] at h
  | cons c cs ih =>
    simp only [findSub] at h
    by_cases hs : listStartsWith old (c :: cs) = true
    · simp only [hs, if_true, Option.some.injEq] at h
      omega
    · simp only [hs, if_false, Bool.false_eq_true, Option.map_eq_some'] at h
      obtain ⟨j, hj, rfl⟩ := h
      have := ih j hj
      simp only [List.length_cons]
      omega

theorem findSub_min (old s : List Char) (i : Nat) (h : findSub old s = some i)
    (j : Nat) (hj : j < i) : ¬ old <+: s.drop j := by
  intro hpre
  obtain ⟨k, hk, hle⟩ := findSub_complete old s j hpre
  rw [h] at hk
  injection hk with hk
  omega

theorem findSub_nil_pattern (s : List Char) : findSub [] s = some 0 := by
  cases s <;> simp [findSub, listStartsWith]

/-- When no occurrence of `old` starts strictly before position `p.length`,
the search finds the decomposition occurrence at `p.length`. -/
theorem findSub_append (old p s : List Char)
    (hfirst : ∀ j < p.length, ¬ old <+: (p ++ old ++ s).drop j) :
    findSub old (p ++ old ++ s) = some p.length := by
  have hpre : old <+: (p ++ old ++ s).drop p.length := by
    rw [List.append_assoc, List.drop_left]
    exact ⟨s, rfl⟩
  obtain ⟨j, hj, hle⟩ := findSub_complete old (p ++ old ++ s) p.length hpre
  rcases Nat.lt_or_ge j p.length with hlt | hge
  · exact absurd (findSub_sound old _ j hj) (hfirst j hlt)
  · have : j = p.length := Nat.le_antisymm hle hge
    rw [this] at hj
    exact hj

/-- Substituting at the found decomposition position. -/
theorem replaceFirst_append (old new p s : List Char)
    (hfind : findSub old (p ++ old ++ s) = some p.length) :
    replaceFirst old new (p ++ old ++ s) = p ++ new ++ s := by
  rw [replaceFirst, hfind]
  show (p ++ old ++ s).take p.length ++ new ++
      (p ++ old ++ s).drop (p.length + old.length) = p ++ new ++ s
  have htake : (p ++ old ++ s).take p.length = p := by
    rw [List.append_assoc, List.take_left]
  have hdrop : (p ++ old ++ s).drop (p.length + old.length) = s := by
    rw [← List.length_append, List.drop_left]
  rw [htake, hdrop]

/-- A position where `old` occurs is a member of the occurrence-count set. -/
theorem mem_occurrence_filter (old s : List Char) (i : Nat)
    (hle : i ≤ s.length) (h : old <+: s.drop i) :
    i ∈ (Finset.range (s.length + 1)).filter
      (fun j => listStartsWith old (List.drop j s) = true) := by
  rw [Finset.mem_filter, Finset.mem_range]
  exact ⟨Nat.lt_succ_of_le hle, (listStartsWith_iff_isPrefix old (s.drop i)).2 h⟩

/-- A single occurrence forbids an occurrence strictly before the
decomposition position. -/
theorem unique_first (old p s : List Char)
    (hone : occurrenceCount old (p ++ old ++ s) = 1) :
    ∀ j < p.length, ¬ old <+: (p ++ old ++ s).drop j := by
  intro j hj hpre
  have hplen : p.length ≤ (p ++ old ++ s).length := by
    simp [List.length_append]
  have hmem1 := mem_occurrence_filter old (p ++ old ++ s) p.length hplen
    (by rw [List.append_assoc, List.drop_left]; exact ⟨s, rfl⟩)
  have hmem2 := mem_occurrence_filter old (p ++ old ++ s) j
    (Nat.le_trans (Nat.le_of_lt hj) hplen) hpre
  have hlt : 1 < ((Finset.range ((p ++ old ++ s).length + 1)).filter
      (fun i => listStartsWith old (List.drop i (p ++ old ++ s)) = true)).card :=
    Finset.one_lt_card.2 ⟨j, hmem2, p.length, hmem1, Nat.ne_of_lt hj⟩
  rw [occurrenceCount] at hone
  omega

/-! ## Claims -/

/-- C1: for every file content containing `oldBlock` exactly once, a
successful apply writes content equal to the original with that single
occurrence replaced by `newBlock`, every other character unchanged, and the
length of the result equals `len(C) - len(old) + len(new)`. -/
theorem apply_unique_exact (old new p s : List Char)
    (hone : occurrenceCount old (p ++ old ++ s) = 1) :
    runScript old new (some (p ++ old ++ s)) = ⟨.ok, some (p ++ new ++ s), 1⟩ ∧
    (p ++ new ++ s).length = (p ++ old ++ s).length - old.length + new.length := by
  have hfind := findSub_append old p s (unique_first old p s hone)
  have hcont : pyContains old (p ++ old ++ s) = true := by
    rw [pyContains, hfind]
    rfl
  constructor
  · simp only [runScript]
    rw [if_pos hcont, replaceFirst_append old new p s hfind]
  · simp only [List.length_append]
    omega

/-- Witness for C1: content abc, old b, new yz. -/
theorem apply_unique_exact_witness :
    occurrenceCount ['b'] (['a'] ++ ['b'] ++ ['c']) = 1 ∧
    (runScript ['b'] ['y', 'z'] (some (['a'] ++ ['b'] ++ ['c'])) =
        ⟨.ok, some (['a'] ++ ['y', 'z'] ++ ['c']), 1⟩ ∧
      (['a'] ++ ['y', 'z'] ++ ['c']).length =
        (['a'] ++ ['b'] ++ ['c']).length - (['b'] : List Char).length +
          (['y', 'z'] : List Char).length) :=
  ⟨by decide, apply_unique_exact ['b'] ['y', 'z'] ['a'] ['c'] (by decide)⟩

/-- C2: when `oldBlock` does not occur in the content as an exact substring,
the run fails with block-not-found, performs zero writes, and the file
content after the failed call is unchanged. -/
theorem apply_absent_noop (old new data : List Char)
    (h : ¬ ∃ p t, data = p ++ old ++ t) :
    runScript old new (some data) = ⟨.blockNotFound, some data, 0⟩ := by
  have hc : pyContains old data = false := by
    cases hb : pyContains old data with
    | false => rfl
    | true => exact absurd ((pyContains_iff old data).1 hb) h
  simp [runScript, hc]

/-- Witness for C2: content ab, old z. -/
theorem apply_absent_noop_witness :
    (¬ ∃ p t, (['a', 'b'] : List Char) = p ++ ['z'] ++ t) ∧
    runScript ['z'] ['x'] (some ['a', 'b']) = ⟨.blockNotFound, some ['a', 'b'], 0⟩ :=
  ⟨fun hex => absurd ((pyContains_iff ['z'] ['a', 'b']).2 hex) (by decide),
   apply_absent_noop ['z'] ['x'] ['a', 'b']
     (fun hex => absurd ((pyContains_iff ['z'] ['a', 'b']).2 hex) (by decide))⟩

/-- C3 as stated is false on the code: with oldBlock a, newBlock a and
content a, the first apply succeeds, and re-applying the same spec to the
resulting file succeeds again instead of failing with block-not-found. -/
theorem reapply_not_blocknotfound_cex :
    (runScript ['a'] ['a'] (some ['a'])).outcome = .ok ∧
    (runScript ['a'] ['a'] (runScript ['a'] ['a'] (some ['a'])).file).outcome = .ok ∧
    (runScript ['a'] ['a'] (runScript ['a'] ['a'] (some ['a'])).file).outcome ≠
      .blockNotFound := by
  decide

/-- C3 amended: applying a spec to content containing `oldBlock` succeeds,
and re-applying the same spec to the result deterministically fails with
block-not-found provided `oldBlock` no longer occurs in the result of the
first application. -/
theorem apply_then_reapply (old new data : List Char)
    (h1 : pyContains old data = true)
    (h2 : pyContains old (replaceFirst old new data) = false) :
    runScript old new (some data) = ⟨.ok, some (replaceFirst old new data), 1⟩ ∧
    runScript old new (some (replaceFirst old new data)) =
      ⟨.blockNotFound, some (replaceFirst old new data), 0⟩ := by
  constructor
  · simp [runScript, h1]
  · simp [runScript, h2]

/-- Witness for amended C3: content abc, old b, new z. -/
theorem apply_then_reapply_witness :
    (pyContains ['b'] ['a', 'b', 'c'] = true ∧
      pyContains ['b'] (replaceFirst ['b'] ['z'] ['a', 'b', 'c']) = false) ∧
    (runScript ['b'] ['z'] (some ['a', 'b', 'c']) =
        ⟨.ok, some (replaceFirst ['b'] ['z'] ['a', 'b', 'c']), 1⟩ ∧
      runScript ['b'] ['z'] (some (replaceFirst ['b'] ['z'] ['a', 'b', 'c'])) =
        ⟨.blockNotFound, some (replaceFirst ['b'] ['z'] ['a', 'b', 'c']), 0⟩) :=
  ⟨⟨by decide, by decide⟩,
   apply_then_reapply ['b'] ['z'] ['a', 'b', 'c'] (by decide) (by decide)⟩

/-- C4: the code has no emptiness check on `oldBlock`.  With an empty
oldBlock and existing content abc the script reads the file, the containment
check passes, and a write is performed (newBlock prepended) — the rejection
before any file I/O required by the spec does not happen. -/
theorem empty_old_not_rejected :
    runScript [] ['x'] (some ['a', 'b', 'c']) =
      ⟨.ok, some ['x', 'a', 'b', 'c'], 1⟩ := by
  decide

/-- C5: when `oldBlock` occurs more than once, apply replaces only the first
occurrence and keeps the suffix holding all later occurrences verbatim. -/
theorem apply_first_of_many (old new p s : List Char)
    (hmany : 2 ≤ occurrenceCount old (p ++ old ++ s))
    (hfirst : ∀ j < p.length, ¬ old <+: (p ++ old ++ s).drop j) :
    runScript old new (some (p ++ old ++ s)) = ⟨.ok, some (p ++ new ++ s), 1⟩ := by
  have hfind := findSub_append old p s hfirst
  have hcont : pyContains old (p ++ old ++ s) = true := by
    rw [pyContains, hfind]
    rfl
  simp only [runScript]
  rw [if_pos hcont, replaceFirst_append old new p s hfind]

/-- Witness for C5: the spec scenario, content a-space-b-space-a with old a
and new x, giving x-space-b-space-a. -/
theorem apply_first_of_many_witness :
    (2 ≤ occurrenceCount ['a'] ([] ++ ['a'] ++ [' ', 'b', ' ', 'a']) ∧
      (∀ j < ([] : List Char).length,
        ¬ (['a'] : List Char) <+: ([] ++ ['a'] ++ [' ', 'b', ' ', 'a']).drop j)) ∧
    runScript ['a'] ['x'] (some ([] ++ ['a'] ++ [' ', 'b', ' ', 'a'])) =
      ⟨.ok, some ([] ++ ['x'] ++ [' ', 'b', ' ', 'a']), 1⟩ :=
  ⟨⟨by decide, by decide⟩,
   apply_first_of_many ['a'] ['x'] [] [' ', 'b', ' ', 'a'] (by decide) (by decide)⟩

/-- C8: when the target file does not exist, the read raises and the run
fails with target-not-found; no write is attempted. -/
theorem apply_missing_target (old new : List Char) :
    runScript old new none = ⟨.targetNotFound, none, 0⟩ := rfl

/-- C9: the run is deterministic — two runs with the same blocks on equal
content take the same branch and produce identical file content and write
counts. -/
theorem apply_deterministic (old new d1 d2 : List Char) (h : d1 = d2) :
    (runScript old new (some d1)).outcome = (runScript old new (some d2)).outcome ∧
    (runScript old new (some d1)).file = (runScript old new (some d2)).file ∧
    (runScript old new (some d1)).writes = (runScript old new (some d2)).writes := by
  subst h
  exact ⟨rfl, rfl, rfl⟩

/-- Witness for C9. -/
theorem apply_deterministic_witness :
    (['c'] : List Char) = ['c'] ∧
    ((runScript ['a'] ['b'] (some ['c'])).outcome =
        (runScript ['a'] ['b'] (some ['c'])).outcome ∧
      (runScript ['a'] ['b'] (some ['c'])).file =
        (runScript ['a'] ['b'] (some ['c'])).file ∧
      (runScript ['a'] ['b'] (some ['c'])).writes =
        (runScript ['a'] ['b'] (some ['c'])).writes) :=
  ⟨rfl, apply_deterministic ['a'] ['b'] ['c'] ['c'] rfl⟩

/-- C10: with an empty `oldBlock` the containment check passes for every
content (the empty pattern occurs at position 0), so the run never aborts
with block-not-found and writes `newBlock` followed by the unchanged
original content. -/
theorem apply_empty_old_inserts (new data : List Char) :
    pyContains [] data = true ∧
    runScript [] new (some data) = ⟨.ok, some (new ++ data), 1⟩ := by
  have hfind := findSub_nil_pattern data
  have hcont : pyContains [] data = true := by
    rw [pyContains, hfind]
    rfl
  have hrep : replaceFirst [] new data = new ++ data := by
    rw [replaceFirst, hfind]
    show data.take 0 ++ new ++ data.drop 0 = new ++ data
    simp
  exact ⟨hcont, by simp [runScript, hcont, hrep]⟩

/-! ## The text-mode I/O layer

`path.read_text()` opens the file in text mode with the default
`newline=None`, so CPython applies universal-newlines translation to the
decoded stream: every CR LF pair and every lone CR becomes a single LF in
the returned text.  `path.write_text(...)` in text mode translates LF to
`os.linesep` on output, which on POSIX is LF itself, so the write persists
the text unchanged. -/

/-- Universal-newlines translation performed by `read_text`: CR LF and lone
CR in the stored character stream become LF in the text the script sees. -/
def univNewlines : List Char → List Char
  | [] => []
  | [c] => if c = '\r' then ['\n'] else [c]
  | c :: d :: rest =>
    if c = '\r' then
      if d = '\n' then '\n' :: univNewlines rest
      else '\n' :: univNewlines (d :: rest)
    else c :: univNewlines (d :: rest)

/-- The script including the text-mode read layer: the stored stream is
decoded with universal newlines before the containment check and the
substitution, and the substituted text is written back (POSIX linesep). -/
def runScriptDisk (old new : List Char) (file : Option (List Char)) : RunResult :=
  match file with
  | none => ⟨.targetNotFound, none, 0⟩
  | some raw =>
    if pyContains old (univNewlines raw) then
      ⟨.ok, some (replaceFirst old new (univNewlines raw)), 1⟩
    else ⟨.blockNotFound, some raw, 0⟩

theorem univNewlines_eq_of_no_cr (s : List Char) (h : '\r' ∉ s) :
    univNewlines s = s := by
  induction s with
  | nil => rfl
  | cons c rest ih =>
    have hc : ¬ c = '\r' := fun hcr => h (hcr ▸ List.mem_cons_self c rest)
    have hrest : '\r' ∉ rest := fun hr => h (List.mem_cons_of_mem c hr)
    cases rest with
    | nil =>
      simp only [univNewlines]
      rw [if_neg hc]
    | cons d rest2 =>
      simp only [univNewlines]
      rw [if_neg hc, ih hrest]

/-- C6 as stated is false on the code: `read_text` normalizes line endings.
With stored content a CR LF b, old b and new b (the replaced occurrence
changes nothing), the run succeeds but persists a LF b — the CR, a byte
outside the replaced occurrence, is not persisted as read. -/
theorem newline_normalization_cex :
    runScriptDisk ['b'] ['b'] (some ['a', '\r', '\n', 'b']) =
      ⟨.ok, some ['a', '\n', 'b'], 1⟩ ∧
    (['a', '\n', 'b'] : List Char) ≠ ['a', '\r', '\n', 'b'] := by
  decide

/-- C6 amended: comparison and substitution are exact
character-for-character with no whitespace or encoding normalization, but
the text-mode read applies universal-newlines translation; for file content
containing no CR the translation is the identity, so the run coincides with
the pure text-level apply and every character outside the replaced
occurrence is persisted exactly as read. -/
theorem no_normalization_without_cr (old new raw : List Char)
    (h : '\r' ∉ raw) :
    runScriptDisk old new (some raw) = runScript old new (some raw) := by
  simp only [runScriptDisk, runScript, univNewlines_eq_of_no_cr raw h]

/-- Witness for amended C6: content abc without CR, old b, new x. -/
theorem no_normalization_without_cr_witness :
    ('\r' ∉ (['a', 'b', 'c'] : List Char)) ∧
    runScriptDisk ['b'] ['x'] (some ['a', 'b', 'c']) =
      runScript ['b'] ['x'] (some ['a', 'b', 'c']) :=
  ⟨by decide, no_normalization_without_cr ['b'] ['x'] ['a', 'b', 'c'] (by decide)⟩

/-- Models `path.write_text` interrupted mid-write: `write_text` opens the
target with mode w, truncating it to length zero, then streams the text; if
the process stops after `k` characters have reached the disk, the file holds
exactly the first `k` characters of the new content.  There is no temporary
file and no rename anywhere in the script. -/
def writeInterrupted (newContent : List Char) (k : Nat) : List Char :=
  newContent.take k

/-- The file content left by a run whose final `write_text` is interrupted
after `k` characters; on the failure branch no write is started. -/
def runScriptInterrupted (old new data : List Char) (k : Nat) : List Char :=
  if pyContains old data then writeInterrupted (replaceFirst old new data) k
  else data

/-- C7 as stated is false on the code: the write is in-place, not
write-to-temporary-then-rename.  With content abc, old a and new x, a write
interrupted after one character leaves the file holding just x — neither the
complete pre-patch content nor the new content. -/
theorem interrupted_write_truncates_cex :
    runScriptInterrupted ['a'] ['x'] ['a', 'b', 'c'] 1 = ['x'] ∧
    (['x'] : List Char) ≠ ['a', 'b', 'c'] := by
  decide

/-- C7 amended: the persistence step is a single direct in-place write with
no temporary location or rename, so it is not atomic: an interrupted write
leaves some prefix of the new content (possibly truncated), not necessarily
the pre-patch content, and only the completed write persists the full new
content. -/
theorem write_direct_in_place (old new data : List Char) (k : Nat)
    (h : pyContains old data = true) :
    runScriptInterrupted old new data k <+: replaceFirst old new data ∧
    runScriptInterrupted old new data (replaceFirst old new data).length =
      replaceFirst old new data := by
  constructor
  · rw [runScriptInterrupted, if_pos h]
    exact List.take_prefix k (replaceFirst old new data)
  · rw [runScriptInterrupted, if_pos h, writeInterrupted, List.take_length]

/-- Witness for amended C7: content ab, old b, new x, interrupted after one
character. -/
theorem write_direct_in_place_witness :
    pyContains ['b'] ['a', 'b'] = true ∧
    (runScriptInterrupted ['b'] ['x'] ['a', 'b'] 1 <+:
        replaceFirst ['b'] ['x'] ['a', 'b'] ∧
      runScriptInterrupted ['b'] ['x'] ['a', 'b']
          (replaceFirst ['b'] ['x'] ['a', 'b']).length =
        replaceFirst ['b'] ['x'] ['a', 'b']) :=
  ⟨by decide, write_direct_in_place ['b'] ['x'] ['a', 'b'] 1 (by decide)⟩
